import Mathlib

set_option maxRecDepth 100000

/-!
Verification development for the gophercoin repository.

Shallow embedding of the ledger core: the block store and tip pointer of
src/blockchain.go, the iterator walk, the UTXO derivation functions, and
the mining scheduler mineTxs from src/gcd/servers.go.

Modelling conventions, stated once here:
* Byte strings are modelled as List Nat (one cell per byte, unbounded cells
  are harmless since no claim depends on byte width).
* The bolt bucket is an association list from key bytes to value bytes;
  storeGet returns the first entry, storePut prepends (the first entry
  shadows older ones, which models overwrite for every lookup).
* A missing key yields the empty byte string at use sites, exactly as a
  nil []byte from bolt Get behaves in the Go code.
* gob serialization of blocks is modelled by an executable injective
  encoder into List Nat together with its partial-inverse decoder; a
  decode failure of the Go code corresponds to the decoder returning none.
* The sha256 digest of block.go and proofofwork.go is not under src; it is
  modelled from the spec as an executable content-derived code of the
  hashed fields (a two-cell list, so it is never empty and never collides
  with the one-cell sentinel keys).
-/

/-- Transaction input, modelled from the spec (transaction.go is not under
src): a reference to a prior transaction id and output index, plus the
unlocking datum compared against an address. -/
structure TXInput where
  txid : List Nat
  vout : Int
  scriptSig : String
  deriving DecidableEq

/-- Transaction output, modelled from the spec (transaction.go is not under
src): a value and a locking datum tying it to an address. -/
structure TXOutput where
  value : Int
  scriptPubKey : String
  deriving DecidableEq

/-- Transaction, modelled from the spec: a content-derived identity, an
ordered list of inputs and an ordered list of outputs. -/
structure Transaction where
  id : List Nat
  vin : List TXInput
  vout : List TXOutput
  deriving DecidableEq

/-- Modelled from the spec: an input can unlock outputs of an address when
its unlocking datum matches the address. -/
def TXInput.CanUnlockOutputWith (inp : TXInput) (unlockingData : String) : Bool :=
  inp.scriptSig == unlockingData

/-- Modelled from the spec: an output is unlockable by an address when its
locking datum matches the address. -/
def TXOutput.CanBeUnlockedWith (out : TXOutput) (unlockingData : String) : Bool :=
  out.scriptPubKey == unlockingData

/-- Modelled from the spec: a coinbase transaction has a single sentinel
input with an empty prior id and output index -1. -/
def Transaction.IsCoinbase (tx : Transaction) : Bool :=
  match tx.vin with
  | [inp] => inp.txid.isEmpty && (inp.vout == (-1 : Int))
  | _ => false

/-- Block of the chain: ordered transactions, hash of the previous block
(empty only for a genesis-style block), timestamp, nonce and own hash. -/
structure Block where
  timestamp : Int
  transactions : List Transaction
  prevBlockHash : List Nat
  nonce : Nat
  hash : List Nat
  deriving DecidableEq

/-- The in-memory Blockchain value of src/blockchain.go: it carries the tip
hash; the db handle is passed separately as the Store. -/
structure Blockchain where
  tip : List Nat
  deriving DecidableEq

/-- The blocks bucket of the bolt database: key bytes to value bytes. -/
def Store := List (List Nat × List Nat)
  deriving DecidableEq

/-- First-match lookup in the bucket; models bolt Get (none for missing). -/
def storeGet : Store → List Nat → Option (List Nat)
  | [], _ => none
  | p :: st, k => if p.1 = k then some p.2 else storeGet st k

/-- Prepending write; models bolt Put (the new entry shadows old ones). -/
def storePut (st : Store) (k v : List Nat) : Store :=
  (k, v) :: st

/-- Length of a store value, used only to size walk fuel. -/
def storeSize (st : Store) : Nat :=
  List.length st

/-- Encoding of one Nat cell. -/
def encNat (n : Nat) : List Nat := [n]

/-- Encoding of an Int as sign tag plus magnitude. -/
def encInt : Int → List Nat
  | Int.ofNat n => [0, n]
  | Int.negSucc n => [1, n]

/-- Decoder for encInt. -/
def decInt : List Nat → Option (Int × List Nat)
  | 0 :: n :: r => some (Int.ofNat n, r)
  | 1 :: n :: r => some (Int.negSucc n, r)
  | _ => none

/-- Length-prefixed encoding of a list given an element encoder. -/
def encList {α : Type} (f : α → List Nat) (xs : List α) : List Nat :=
  xs.length :: (xs.map f).flatten

/-- Run an element decoder a given number of times. -/
def decListAux {α : Type} (dec : List Nat → Option (α × List Nat)) :
    Nat → List Nat → Option (List α × List Nat)
  | 0, r => some ([], r)
  | n + 1, r =>
    match dec r with
    | none => none
    | some (x, r1) =>
      match decListAux dec n r1 with
      | none => none
      | some (xs, r2) => some (x :: xs, r2)

/-- Decoder for encList. -/
def decList {α : Type} (dec : List Nat → Option (α × List Nat)) :
    List Nat → Option (List α × List Nat)
  | [] => none
  | n :: r => decListAux dec n r

/-- Length-prefixed encoding of a byte string. -/
def encBytes (l : List Nat) : List Nat :=
  encList encNat l

/-- Decoder for one Nat cell. -/
def decNat : List Nat → Option (Nat × List Nat)
  | n :: r => some (n, r)
  | [] => none

/-- Decoder for encBytes. -/
def decBytes : List Nat → Option (List Nat × List Nat) :=
  decList decNat

/-- Encoding of a character by its code point. -/
def encChar (c : Char) : List Nat := [c.toNat]

/-- Decoder for encChar. -/
def decChar : List Nat → Option (Char × List Nat)
  | n :: r => some (Char.ofNat n, r)
  | [] => none

/-- Length-prefixed encoding of a string. -/
def encString (s : String) : List Nat :=
  encList encChar s.data

/-- Decoder for encString. -/
def decString (l : List Nat) : Option (String × List Nat) :=
  match decList decChar l with
  | none => none
  | some (cs, r) => some (String.mk cs, r)

/-- Encoding of a transaction output. -/
def encTXOutput (o : TXOutput) : List Nat :=
  encInt o.value ++ encString o.scriptPubKey

/-- Decoder for encTXOutput. -/
def decTXOutput (l : List Nat) : Option (TXOutput × List Nat) :=
  match decInt l with
  | none => none
  | some (v, r1) =>
    match decString r1 with
    | none => none
    | some (s, r2) => some (⟨v, s⟩, r2)

/-- Encoding of a transaction input. -/
def encTXInput (i : TXInput) : List Nat :=
  encBytes i.txid ++ encInt i.vout ++ encString i.scriptSig

/-- Decoder for encTXInput. -/
def decTXInput (l : List Nat) : Option (TXInput × List Nat) :=
  match decBytes l with
  | none => none
  | some (t, r1) =>
    match decInt r1 with
    | none => none
    | some (v, r2) =>
      match decString r2 with
      | none => none
      | some (s, r3) => some (⟨t, v, s⟩, r3)

/-- Encoding of a transaction. -/
def encTransaction (t : Transaction) : List Nat :=
  encBytes t.id ++ encList encTXInput t.vin ++ encList encTXOutput t.vout

/-- Decoder for encTransaction. -/
def decTransaction (l : List Nat) : Option (Transaction × List Nat) :=
  match decBytes l with
  | none => none
  | some (i, r1) =>
    match decList decTXInput r1 with
    | none => none
    | some (vin, r2) =>
      match decList decTXOutput r2 with
      | none => none
      | some (vout, r3) => some (⟨i, vin, vout⟩, r3)

/-- Serialization of a whole block, the image of gob encoding in the model;
SerializeBlock of block.go is not under src and is modelled from the spec
as an injective executable encoding of all block fields. -/
def SerializeBlock (b : Block) : List Nat :=
  encInt b.timestamp ++ encList encTransaction b.transactions ++
    encBytes b.prevBlockHash ++ encNat b.nonce ++ encBytes b.hash

/-- Deserialization of a block; fails (none) on bytes that are not a full
valid encoding, which models a gob decode error, including the decode of a
nil byte string returned by bolt Get for a missing key. -/
def DeserializeBlock (l : List Nat) : Option Block :=
  match decInt l with
  | none => none
  | some (ts, r1) =>
    match decList decTransaction r1 with
    | none => none
    | some (txs, r2) =>
      match decBytes r2 with
      | none => none
      | some (prev, r3) =>
        match decNat r3 with
        | none => none
        | some (nonce, r4) =>
          match decBytes r4 with
          | none => none
          | some (h, r5) =>
            if r5.isEmpty then some ⟨ts, txs, prev, nonce, h⟩ else none

/-- Accumulating code over a byte list, used inside the modelled digest. -/
def polyFold (l : List Nat) : Nat :=
  l.foldl (fun a b => a * 31 + b + 1) 7

/-- Modelled from the spec: the sha256 digest of the hashed block fields
(block.go and proofofwork.go are not under src). The model is a two-cell
list: a tag and a content-derived code, so every digest is nonempty and
its length differs from the one-cell sentinel keys. -/
def digest (ts : Int) (txs : List Transaction) (prev : List Nat) (nonce : Nat) : List Nat :=
  [2, polyFold (encInt ts ++ encList encTransaction txs ++ encBytes prev ++ encNat nonce)]

/-- Modelled from the spec: the content-derived identity of a transaction. -/
def txDigest (vin : List TXInput) (vout : List TXOutput) : List Nat :=
  [3, polyFold (encList encTXInput vin ++ encList encTXOutput vout)]

/-- Modelled from the spec: NewBlock of block.go (not under src) builds a
block over the given previous hash and transactions. The proof-of-work
nonce search is irrelevant to every claim here and is modelled as taking
nonce 0; the timestamp is fixed to 0 (the wall clock is not modelled). -/
def NewBlock (prevBlockHash : List Nat) (transactions : List Transaction) : Block :=
  { timestamp := 0
    transactions := transactions
    prevBlockHash := prevBlockHash
    nonce := 0
    hash := digest 0 transactions prevBlockHash 0 }

/-- Modelled from the spec: the fixed coinbase reward value (transaction.go
is not under src). -/
def subsidy : Int := 10

/-- Modelled from the spec: NewCoinbaseTX (transaction.go is not under src)
builds a transaction with one sentinel input carrying the data string and
one output paying the fixed reward to the given address. -/
def NewCoinbaseTX (toAddr data : String) : Transaction :=
  let vin : List TXInput := [⟨[], -1, data⟩]
  let vout : List TXOutput := [⟨subsidy, toAddr⟩]
  { id := txDigest vin vout, vin := vin, vout := vout }

/-- Modelled from the spec: the genesis block wraps the coinbase
transaction and has an empty previous hash. -/
def genesisBlock (coinbase : Transaction) : Block :=
  NewBlock [] [coinbase]

/-- The genesis coinbase data constant of src/constants.go. -/
def genesisCoinbaseData : String :=
  "May 7 2019, 10:00pm, The Times\tJürgen Klopp makes Liverpool believe they can do the impossible\t\tMatt Dickinson, Chief Sports Writer"

/-- The sentinel key written by CreateBlockchain at src/blockchain.go line
231: the byte string of the letter l. -/
def keyL : List Nat := [108]

/-- The sentinel key read by MineBlock (line 38) and NewBlockchain (line
272) and written by MineBlock (line 60): the byte string of the digit 1. -/
def key1 : List Nat := [49]

/-- The tip bytes MineBlock reads at src/blockchain.go line 38: the value
under key1, or the empty byte string when the key is absent (bolt Get
returns nil). -/
def mineBlockTipRead (st : Store) : List Nat :=
  (storeGet st key1).getD []

/-- CreateBlockchain of src/blockchain.go lines 201 to 250, acting on a
fresh empty store: build the genesis coinbase and block, put the block
under its hash, put the tip pointer under keyL, and return the Blockchain
with the genesis hash as tip. The DBExists check, file opening and the
log.Panic paths on store errors are startup concerns outside the model. -/
def CreateBlockchain (address : String) : Blockchain × Store :=
  let cbtx := NewCoinbaseTX address genesisCoinbaseData
  let genesis := genesisBlock cbtx
  let st1 := storePut [] genesis.hash (SerializeBlock genesis)
  let st2 := storePut st1 keyL genesis.hash
  ({ tip := genesis.hash }, st2)

/-- NewBlockchain of src/blockchain.go lines 257 to 286: open the store and
read the tip under key1 (nil, hence empty, when absent). -/
def NewBlockchain (st : Store) : Blockchain :=
  { tip := (storeGet st key1).getD [] }

/-- Which store operations fail during one MineBlock run; each flag mirrors
one err branch of src/blockchain.go lines 48 to 68. -/
structure FailSpec where
  serFail : Bool
  putBlockFail : Bool
  putTipFail : Bool
  deriving DecidableEq

/-- Result of the MineBlock method: the receiver state, the store, and the
error value of db.Update as the Go code leaves it (the closure returns nil
in every branch, so it is always none; the method itself returns nothing
to its caller). -/
structure MineBlockOut where
  bc : Blockchain
  st : Store
  err : Option Unit
  deriving DecidableEq

/-- MineBlock of src/blockchain.go lines 33 to 69 with explicit store
failure outcomes. It reads the last hash under key1, builds the new block,
then runs the update: on a serialization failure it logs and returns nil
before any put; on a failed put of the block it logs and returns nil; on a
failed put of the tip pointer it logs and returns nil without assigning
the receiver tip; otherwise it stores the block, advances key1 and the
receiver tip. A failed put is modelled as writing nothing. -/
def MineBlockF (fs : FailSpec) (bc : Blockchain) (st : Store)
    (transactions : List Transaction) : MineBlockOut :=
  let lastHash := mineBlockTipRead st
  let newBlock := NewBlock lastHash transactions
  if fs.serFail then
    { bc := bc, st := st, err := none }
  else if fs.putBlockFail then
    { bc := bc, st := st, err := none }
  else
    let st1 := storePut st newBlock.hash (SerializeBlock newBlock)
    if fs.putTipFail then
      { bc := bc, st := st1, err := none }
    else
      { bc := { tip := newBlock.hash }, st := storePut st1 key1 newBlock.hash, err := none }

/-- MineBlock in the failure-free run. -/
def MineBlock (bc : Blockchain) (st : Store) (transactions : List Transaction) : MineBlockOut :=
  MineBlockF ⟨false, false, false⟩ bc st transactions

/-- Modelled from the spec: the gcd package Blockchain MineBlock called at
src/gcd/servers.go line 189 (the gcd blockchain file is not under src,
only this caller is). Per spec section 4.1 it reads the current tip,
produces a new block whose previous hash is that tip, persists the block,
advances the tip, and returns the new block; per spec section 9 it uses
one canonical tip key uniformly. -/
structure MineResult where
  bc : Blockchain
  st : Store
  block : Block
  deriving DecidableEq

/-- The canonical tip key of the spec-modelled gcd ledger. -/
def tipKey : List Nat := keyL

/-- Modelled from the spec: body of the gcd MineBlock, see MineResult. -/
def gcdMineBlock (st : Store) (transactions : List Transaction) : MineResult :=
  let lastHash := (storeGet st tipKey).getD []
  let newBlock := NewBlock lastHash transactions
  let st1 := storePut st newBlock.hash (SerializeBlock newBlock)
  let st2 := storePut st1 tipKey newBlock.hash
  { bc := { tip := newBlock.hash }, st := st2, block := newBlock }

/-- Outcome of one iterator step: either the Go code panics (the block
pointer stayed nil after a failed decode and line 108 dereferences it), or
it yields the block and the hash the iterator moves to. -/
inductive NextResult where
  | panicked : NextResult
  | ok : Block → List Nat → NextResult
  deriving DecidableEq

/-- Read step of a view transaction: a read-only access returning the
value and the store it ran against. -/
def storeGetS (st : Store) (k : List Nat) : Option (List Nat) × Store :=
  (storeGet st k, st)

/-- Next of src/blockchain.go lines 89 to 111, with the store threaded
through the view transaction. Get of a missing key yields nil bytes; a
failed decode logs and leaves the block pointer nil, after which line 108
reads block.PrevBlockHash from the nil pointer: that run is panicked. -/
def BlockchainIterator.Next (st : Store) (currentHash : List Nat) : NextResult × Store :=
  let g := storeGetS st currentHash
  match DeserializeBlock (g.1.getD []) with
  | none => (NextResult.panicked, g.2)
  | some b => (NextResult.ok b b.prevBlockHash, g.2)

/-- The iteration loop shared by the Find functions of src/blockchain.go:
repeatedly call Next and stop after the block whose previous hash is
empty. Fuel bounds the walk; none models a run that panics in Next or
never reaches an empty previous hash within fuel. The store is threaded
through every step. -/
def walkBlocksS : Nat → Store → List Nat → Option (List Block) × Store
  | 0, st, _ => (none, st)
  | fuel + 1, st, currentHash =>
    match BlockchainIterator.Next st currentHash with
    | (NextResult.panicked, st1) => (none, st1)
    | (NextResult.ok b next, st1) =>
      if b.prevBlockHash.isEmpty then (some [b], st1)
      else
        match walkBlocksS fuel st1 next with
        | (obs, st2) => (obs.map (fun bs => b :: bs), st2)

/-- The walked blocks, value part. -/
def walkBlocks (fuel : Nat) (st : Store) (tip : List Nat) : Option (List Block) :=
  (walkBlocksS fuel st tip).1

/-- All transactions of the walk from a tip, in processing order: blocks
from tip backwards, transactions of each block in block order. -/
def walkTxs (st : Store) (tip : List Nat) : Option (List Transaction) :=
  (walkBlocks (storeSize st + 1) st tip).map (fun bs => (bs.map Block.transactions).flatten)

/-- The spent-outputs map of FindUnspentTransactions: transaction id to
recorded output indices. The Go map is keyed by the hex encoding of the
id; hex encoding is injective, so the model keys by the id bytes. -/
def SpentMap := List (List Nat × List Int)

/-- Map read: the recorded indices under a key, nil (empty) when absent. -/
def smGet : SpentMap → List Nat → List Int
  | [], _ => []
  | p :: m, k => if p.1 = k then p.2 else smGet m k

/-- Map write: append one index under a key, as the Go append does. -/
def smAdd : SpentMap → List Nat → Int → SpentMap
  | [], k, v => [(k, [v])]
  | p :: m, k, v => if p.1 = k then (p.1, p.2 ++ [v]) :: m else p :: smAdd m k v

/-- Processing of one transaction inside the walk loop of
FindUnspentTransactions, lines 122 to 148: first the outputs loop (skip an
output already recorded spent, append the transaction once per remaining
output unlockable by the address), then, for non-coinbase transactions,
the inputs loop recording referenced outputs spent when the input can
unlock for the address. -/
def processTx (address : String) (acc : List Transaction × SpentMap)
    (tx : Transaction) : List Transaction × SpentMap :=
  let unspent := tx.vout.enum.foldl
    (fun u p =>
      if (smGet acc.2 tx.id).contains (Int.ofNat p.1) then u
      else if p.2.CanBeUnlockedWith address then u ++ [tx] else u)
    acc.1
  let spent :=
    if tx.IsCoinbase then acc.2
    else tx.vin.foldl
      (fun sp inp =>
        if inp.CanUnlockOutputWith address then smAdd sp inp.txid inp.vout else sp)
      acc.2
  (unspent, spent)

/-- FindUnspentTransactions restricted to an already-walked transaction
list in processing order. -/
def findUnspentFromList (txs : List Transaction) (address : String) : List Transaction :=
  (txs.foldl (processTx address) ([], [])).1

/-- The spent map accumulated after processing a list of transactions. -/
def spentAfter (address : String) (txs : List Transaction) : SpentMap :=
  (txs.foldl (processTx address) ([], [])).2

/-- FindUnspentTransactions of src/blockchain.go lines 114 to 157 with the
store threaded: walk from the tip and process every transaction. -/
def FindUnspentTransactionsS (bc : Blockchain) (st : Store) (address : String) :
    Option (List Transaction) × (Blockchain × Store) :=
  let w := walkBlocksS (storeSize st + 1) st bc.tip
  (w.1.map (fun bs => findUnspentFromList ((bs.map Block.transactions).flatten) address),
    (bc, w.2))

/-- FindUnspentTransactions, value part. -/
def FindUnspentTransactions (bc : Blockchain) (st : Store) (address : String) :
    Option (List Transaction) :=
  (FindUnspentTransactionsS bc st address).1

/-- The output-collecting loops of FindUTXO, lines 164 to 170: for every
unspent transaction append each output unlockable by the address. -/
def findUTXOFromList (txs : List Transaction) (address : String) : List TXOutput :=
  txs.foldl
    (fun acc tx => tx.vout.foldl
      (fun acc2 out => if out.CanBeUnlockedWith address then acc2 ++ [out] else acc2)
      acc)
    []

/-- FindUTXO of src/blockchain.go lines 160 to 173 with the store
threaded. -/
def FindUTXOS (bc : Blockchain) (st : Store) (address : String) :
    Option (List TXOutput) × (Blockchain × Store) :=
  let u := FindUnspentTransactionsS bc st address
  (u.1.map (fun l => findUTXOFromList l address), u.2)

/-- FindUTXO, value part. -/
def FindUTXO (bc : Blockchain) (st : Store) (address : String) : Option (List TXOutput) :=
  (FindUTXOS bc st address).1

/-- Inner outputs loop of FindSpendableOutputs, lines 185 to 194: select an
output when it is unlockable and the accumulated value is still below the
requested amount; record its index under the transaction id; the Bool
result tells whether the labelled break fired (accumulated reached the
amount). -/
def findSpendableInner (address : String) (amount : Int) (tx : Transaction) :
    List (Nat × TXOutput) → Int → List (List Nat × List Int) →
      Int × List (List Nat × List Int) × Bool
  | [], acc, sel => (acc, sel, false)
  | (outIdx, out) :: rest, acc, sel =>
    if out.CanBeUnlockedWith address && decide (acc < amount) then
      let acc2 := acc + out.value
      let sel2 := smAdd sel tx.id (Int.ofNat outIdx)
      if amount ≤ acc2 then (acc2, sel2, true)
      else findSpendableInner address amount tx rest acc2 sel2
    else findSpendableInner address amount tx rest acc sel

/-- Outer loop of FindSpendableOutputs, lines 181 to 195, over the unspent
transaction list; the labelled break leaves both loops. -/
def findSpendableLoop (address : String) (amount : Int) :
    List Transaction → Int → List (List Nat × List Int) →
      Int × List (List Nat × List Int)
  | [], acc, sel => (acc, sel)
  | tx :: rest, acc, sel =>
    match findSpendableInner address amount tx tx.vout.enum acc sel with
    | (acc2, sel2, true) => (acc2, sel2)
    | (acc2, sel2, false) => findSpendableLoop address amount rest acc2 sel2

/-- FindSpendableOutputs restricted to an already-computed unspent list. -/
def findSpendableFromList (address : String) (amount : Int)
    (txs : List Transaction) : Int × List (List Nat × List Int) :=
  findSpendableLoop address amount txs 0 []

/-- FindSpendableOutputs of src/blockchain.go lines 176 to 198 with the
store threaded. -/
def FindSpendableOutputsS (bc : Blockchain) (st : Store) (address : String)
    (amount : Int) :
    Option (Int × List (List Nat × List Int)) × (Blockchain × Store) :=
  let u := FindUnspentTransactionsS bc st address
  (u.1.map (fun l => findSpendableFromList address amount l), u.2)

/-- FindSpendableOutputs, value part. -/
def FindSpendableOutputs (bc : Blockchain) (st : Store) (address : String)
    (amount : Int) : Option (Int × List (List Nat × List Int)) :=
  (FindSpendableOutputsS bc st address amount).1

/-- Lookup in an association list keyed by id bytes (the Go mempool map is
keyed by the hex encoding of the id, an injective encoding, so the model
keys by the id bytes themselves). -/
def alookup {α : Type} : List (List Nat × α) → List Nat → Option α
  | [], _ => none
  | p :: m, k => if p.1 = k then some p.2 else alookup m k

/-- Removal of a key, as the Go delete builtin. -/
def aerase {α : Type} : List (List Nat × α) → List Nat → List (List Nat × α)
  | [], _ => []
  | p :: m, k => if p.1 = k then aerase m k else p :: aerase m k

/-- The empty string constant passed to NewCoinbaseTX by mineTxs. -/
def emptyData : String := ""

/-- Result of one mineTxs run: the transactions that passed verification,
the full included list (verified plus the appended coinbase), the mined
block, the mempool after the commit, and the new chain state. -/
structure MineTxsResult where
  verified : List Transaction
  included : List Transaction
  newBlock : Block
  memPool : List (List Nat × Transaction)
  bc : Blockchain
  st : Store

/-- The mineTxs method of src/gcd/servers.go lines 164 to 204: verify each
mempool transaction (the verifier is passed in as a function of the
transaction, standing for db.VerifyTransaction against the current chain),
append a coinbase paying the mining address, mine the block, and delete
every included transaction from the mempool. Go map iteration order is
unspecified; the model iterates the association list in order, and every
claim settled here is order independent. The UTXO set reindex touches only
the derived cache, which no claim reads, and the inventory announcements
to peers leave the node state unchanged; neither is part of this state. -/
def mineTxs (verify : Transaction → Bool) (miningAddress : String)
    (memPool : List (List Nat × Transaction)) (st : Store) : MineTxsResult :=
  let txs := (memPool.map Prod.snd).filter verify
  let cbTx := NewCoinbaseTX miningAddress emptyData
  let txs2 := txs ++ [cbTx]
  let r := gcdMineBlock st txs2
  let mp := txs2.foldl (fun m tx => aerase m tx.id) memPool
  { verified := txs, included := txs2, newBlock := r.block,
    memPool := mp, bc := r.bc, st := r.st }

/-- Concrete address used by the worked scenarios. -/
def exAddrA : String := "A"

/-- A second concrete address. -/
def exAddrB : String := "B"

/-- A concrete non-coinbase transaction with two outputs locked to the
first address; its input references a foreign transaction and unlocks for
the second address only. -/
def exTx1 : Transaction :=
  { id := [9], vin := [⟨[7], 0, exAddrB⟩], vout := [⟨4, exAddrA⟩, ⟨6, exAddrA⟩] }

/-- The freshly created ledger of the worked scenario. -/
def exCreate : Blockchain × Store := CreateBlockchain exAddrA

/-- The worked scenario after one MineBlock call on the fresh ledger. -/
def exMine : MineBlockOut := MineBlock exCreate.1 exCreate.2 [exTx1]


/-- A store read after a write at the same key sees the written value. -/
theorem storeGet_put_self (st : Store) (k v : List Nat) :
    storeGet (storePut st k v) k = some v := by
  simp [storePut, storeGet]

/-- A store read after a write at a different key is unchanged. -/
theorem storeGet_put_ne (st : Store) (k k2 v : List Nat) (h : k2 ≠ k) :
    storeGet (storePut st k2 v) k = storeGet st k := by
  simp [storePut, storeGet, h]

/-- The modelled digest is a two-cell list, hence never empty and never
equal to a one-cell sentinel key. -/
theorem digest_eq_pair (ts : Int) (txs : List Transaction) (prev : List Nat) (n : Nat) :
    digest ts txs prev n =
      [2, polyFold (encInt ts ++ encList encTransaction txs ++ encBytes prev ++ encNat n)] :=
  rfl

/-- The hash of a built block is its digest. -/
theorem NewBlock_hash (prev : List Nat) (txs : List Transaction) :
    (NewBlock prev txs).hash = digest 0 txs prev 0 :=
  rfl

/-- Block hashes are distinct from the tip sentinel key of the writes. -/
theorem digest_ne_key1 (ts : Int) (txs : List Transaction) (prev : List Nat) (n : Nat) :
    digest ts txs prev n ≠ key1 := by
  simp [digest, key1]

/-- Block hashes are distinct from the tip sentinel key of the creation. -/
theorem digest_ne_keyL (ts : Int) (txs : List Transaction) (prev : List Nat) (n : Nat) :
    digest ts txs prev n ≠ keyL := by
  simp [digest, keyL]

/-- Block hashes are nonempty. -/
theorem digest_ne_nil (ts : Int) (txs : List Transaction) (prev : List Nat) (n : Nat) :
    digest ts txs prev n ≠ [] := by
  simp [digest]

/-- C1: the tip pointer is stored under different sentinel keys at
different call sites. After CreateBlockchain the genesis tip sits under
the key l while the key 1 that MineBlock and NewBlockchain read is absent,
so the tip bytes those readers obtain are empty and differ from the tip
written at genesis creation. -/
theorem tip_key_mismatch (address : String) :
    storeGet (CreateBlockchain address).2 keyL = some (CreateBlockchain address).1.tip ∧
    storeGet (CreateBlockchain address).2 key1 = none ∧
    mineBlockTipRead (CreateBlockchain address).2 = [] ∧
    (NewBlockchain (CreateBlockchain address).2).tip = [] ∧
    (CreateBlockchain address).1.tip ≠ [] := by
  unfold CreateBlockchain NewBlockchain mineBlockTipRead
  simp [genesisBlock, NewBlock, storePut, storeGet, keyL, key1, digest]

/-- C2: the ledger MineBlock reads the current tip, produces a block whose
previous hash is that tip, persists the block under its hash, advances the
tip pointer to the new hash, and hands the new block back (the block field
of the result is the value returned to the caller at servers.go line
189). -/
theorem gcdMineBlock_contract (st : Store) (txs : List Transaction) :
    (gcdMineBlock st txs).block.prevBlockHash = (storeGet st tipKey).getD [] ∧
    storeGet (gcdMineBlock st txs).st (gcdMineBlock st txs).block.hash
      = some (SerializeBlock (gcdMineBlock st txs).block) ∧
    storeGet (gcdMineBlock st txs).st tipKey = some (gcdMineBlock st txs).block.hash ∧
    (gcdMineBlock st txs).bc.tip = (gcdMineBlock st txs).block.hash := by
  unfold gcdMineBlock
  simp [NewBlock, storePut, storeGet, tipKey, keyL, digest]

/-- C3: evaluation of the code at the failing input. On the ledger freshly
created for the first address, one successful MineBlock call produces a
chain whose walk from the tip yields exactly one block, the mined one,
whose previous hash is empty, while the genesis block is still stored
under the key l and is a different block: the walk never reaches it, so k
plus one blocks are not yielded for k equal one. -/
theorem walk_after_one_mine_orphans_genesis :
    walkBlocks (storeSize exMine.st + 1) exMine.st exMine.bc.tip
      = some [NewBlock [] [exTx1]] ∧
    (NewBlock [] [exTx1]).prevBlockHash = [] ∧
    storeGet exMine.st keyL = some exCreate.1.tip ∧
    exCreate.1.tip ≠ (NewBlock [] [exTx1]).hash := by
  decide

/-- C4: every store failure inside MineBlock is swallowed. For each of the
three failure points (serialization of the block, put of the block, put of
the tip pointer) the update closure returns nil, so the error value of
db.Update is none exactly as in a successful run, the receiver is left
untouched, and in the tip-put case the tip key keeps its old value while
the caller sees no error at all. -/
theorem mineBlock_swallows_store_errors (bc : Blockchain) (st : Store)
    (txs : List Transaction) :
    ((MineBlockF ⟨true, false, false⟩ bc st txs).err = none ∧
     (MineBlockF ⟨true, false, false⟩ bc st txs).bc = bc ∧
     (MineBlockF ⟨true, false, false⟩ bc st txs).st = st) ∧
    ((MineBlockF ⟨false, true, false⟩ bc st txs).err = none ∧
     (MineBlockF ⟨false, true, false⟩ bc st txs).bc = bc ∧
     (MineBlockF ⟨false, true, false⟩ bc st txs).st = st) ∧
    ((MineBlockF ⟨false, false, true⟩ bc st txs).err = none ∧
     (MineBlockF ⟨false, false, true⟩ bc st txs).bc = bc ∧
     storeGet (MineBlockF ⟨false, false, true⟩ bc st txs).st key1 = storeGet st key1) := by
  unfold MineBlockF
  simp [storePut, storeGet, NewBlock, digest, key1]

/-- A store holding undecodable bytes under a one-cell key. -/
def corruptStore : Store := [([1], [5])]

/-- C5: when the stored bytes fail to decode, Next does not fail with an
explicit error: the run is panicked, modelling that the Go code logs,
keeps the nil block pointer and dereferences its PrevBlockHash field. The
same happens for a missing key, whose nil bytes also fail to decode. -/
theorem next_corrupt_data_panics :
    (BlockchainIterator.Next corruptStore [1]).1 = NextResult.panicked ∧
    (BlockchainIterator.Next corruptStore [3]).1 = NextResult.panicked := by
  decide

/-- A mempool transaction for the mineTxs scenario. -/
def exPoolTx : Transaction :=
  { id := [11], vin := [⟨[9], 0, exAddrA⟩], vout := [⟨3, exAddrB⟩] }

/-- A one-entry mempool holding that transaction under its id. -/
def exPool : List (List Nat × Transaction) := [([11], exPoolTx)]

/-- A verifier accepting everything, for the mineTxs scenario. -/
def exVerifyAll : Transaction → Bool := fun _ => true

/-- The mining address of the mineTxs scenario. -/
def exAddrM : String := "M"

/-- One mineTxs run on the scenario mempool and chain. -/
def exMineTxs : MineTxsResult := mineTxs exVerifyAll exAddrM exPool exMine.st

/-- C6 counterexample: it is not the case that every transaction included
in the committed block was present in the mempool before the commit; the
appended coinbase is included but was never a mempool entry. -/
theorem mineTxs_included_not_all_present_before :
    ¬ (∀ tx ∈ exMineTxs.included, (alookup exPool tx.id).isSome = true) := by
  decide

/-- A Next step leaves the store it ran against unchanged: the view
transaction only performs Get. -/
theorem next_store (st : Store) (cur : List Nat) :
    (BlockchainIterator.Next st cur).2 = st := by
  unfold BlockchainIterator.Next storeGetS
  cases h : DeserializeBlock ((storeGet st cur).getD []) <;> simp [h]

/-- The whole walk leaves the store unchanged. -/
theorem walkBlocksS_store (fuel : Nat) :
    ∀ (st : Store) (cur : List Nat), (walkBlocksS fuel st cur).2 = st := by
  induction fuel with
  | zero => intro st cur; rfl
  | succ n ih =>
    intro st cur
    unfold walkBlocksS
    rcases hn : BlockchainIterator.Next st cur with ⟨res, st1⟩
    have hst1 : st1 = st := by
      have h := next_store st cur
      rw [hn] at h
      exact h
    cases res with
    | panicked => exact hst1
    | ok b next =>
      by_cases hp : b.prevBlockHash.isEmpty
      · dsimp only
        rw [if_pos hp]
        exact hst1
      · dsimp only
        rw [if_neg hp, hst1]
        rcases hw : walkBlocksS n st next with ⟨obs, st2⟩
        have h := ih st next
        rw [hw] at h
        exact h

/-- C8: the UTXO derivation is a pure read. FindUnspentTransactions and
FindUTXO leave the chain value and the store exactly as given, and a
second invocation on the state left by the first returns the identical
result, so deriving the unspent set twice with no intervening commit is
idempotent. -/
theorem findUTXO_pure_idempotent (bc : Blockchain) (st : Store) (address : String) :
    (FindUnspentTransactionsS bc st address).2 = (bc, st) ∧
    (FindUTXOS bc st address).2 = (bc, st) ∧
    (FindUnspentTransactionsS (FindUnspentTransactionsS bc st address).2.1
        (FindUnspentTransactionsS bc st address).2.2 address).1
      = (FindUnspentTransactionsS bc st address).1 ∧
    (FindUTXOS (FindUTXOS bc st address).2.1 (FindUTXOS bc st address).2.2 address).1
      = (FindUTXOS bc st address).1 := by
  have hw := walkBlocksS_store (storeSize st + 1) st bc.tip
  refine ⟨?_, ?_, ?_, ?_⟩
  · simp [FindUnspentTransactionsS, hw]
  · simp [FindUTXOS, FindUnspentTransactionsS, hw]
  · simp [FindUnspentTransactionsS, hw]
  · simp [FindUTXOS, FindUnspentTransactionsS, hw]

/-- Erasing a key makes its lookup fail. -/
theorem alookup_aerase_self {α : Type} (m : List (List Nat × α)) (k : List Nat) :
    alookup (aerase m k) k = none := by
  induction m with
  | nil => rfl
  | cons p m ih =>
    by_cases h : p.1 = k
    · simp [aerase, h, ih]
    · simp [aerase, alookup, h, ih]

/-- Erasing one key leaves lookups of other keys unchanged. -/
theorem alookup_aerase_ne {α : Type} (m : List (List Nat × α)) (k k2 : List Nat)
    (h : k ≠ k2) : alookup (aerase m k2) k = alookup m k := by
  induction m with
  | nil => rfl
  | cons p m ih =>
    by_cases hp : p.1 = k2
    · have hpk : p.1 ≠ k := by
        rw [hp]
        exact fun hh => h hh.symm
      simp [aerase, alookup, hp, hpk, ih, Ne.symm h]
    · simp [aerase, alookup, hp, ih]

/-- Lookup after erasing the ids of a whole transaction list: erased keys
are gone, all others are untouched. -/
theorem alookup_foldl_aerase (l : List Transaction) :
    ∀ (m : List (List Nat × Transaction)) (k : List Nat),
      alookup (l.foldl (fun m tx => aerase m tx.id) m) k
        = if k ∈ l.map Transaction.id then none else alookup m k := by
  induction l with
  | nil => intro m k; simp
  | cons t l ih =>
    intro m k
    simp only [List.foldl_cons, List.map_cons, List.mem_cons]
    rw [ih]
    by_cases hk : k ∈ l.map Transaction.id
    · simp [hk]
    · by_cases ht : k = t.id
      · simp [hk, ht, alookup_aerase_self]
      · simp [hk, ht, alookup_aerase_ne m k t.id ht]

/-- In a pool with distinct keys, the lookup of the key of an entry yields
that entry. -/
theorem alookup_of_mem_nodup (m : List (List Nat × Transaction))
    (hnd : (m.map Prod.fst).Nodup) (p : List Nat × Transaction) (hp : p ∈ m) :
    alookup m p.1 = some p.2 := by
  induction m with
  | nil => cases hp
  | cons q m ih =>
    rcases List.mem_cons.mp hp with hpq | hpm
    · subst hpq
      simp [alookup]
    · by_cases hq : q.1 = p.1
      · exfalso
        have hmem : p.1 ∈ m.map Prod.fst := List.mem_map_of_mem Prod.fst hpm
        rw [← hq] at hmem
        exact (List.nodup_cons.mp (by simpa using hnd)).1 hmem
      · have hnd2 : (m.map Prod.fst).Nodup := (List.nodup_cons.mp (by simpa using hnd)).2
        simp [alookup, hq, ih hnd2 hpm]

/-- A present entry makes its key look up to something. -/
theorem alookup_isSome_of_mem (m : List (List Nat × Transaction))
    (p : List Nat × Transaction) (hp : p ∈ m) : (alookup m p.1).isSome = true := by
  induction m with
  | nil => cases hp
  | cons q m ih =>
    by_cases hq : q.1 = p.1
    · simp [alookup, hq]
    · rcases List.mem_cons.mp hp with hpq | hpm
      · subst hpq
        exact absurd rfl hq
      · simp [alookup, hq, ih hpm]

/-- Two pool entries with the same key are the same entry when the keys
are distinct. -/
theorem mem_nodup_keys_inj (m : List (List Nat × Transaction))
    (hnd : (m.map Prod.fst).Nodup) (p q : List Nat × Transaction)
    (hp : p ∈ m) (hq : q ∈ m) (h : p.1 = q.1) : p = q := by
  have h1 := alookup_of_mem_nodup m hnd p hp
  have h2 := alookup_of_mem_nodup m hnd q hq
  rw [h] at h1
  rw [h1] at h2
  have := Option.some.inj h2
  cases p
  cases q
  simp only at h this
  simp [h, this]

/-- C6 amended: after a successful mineTxs commit every included
transaction is absent from the mempool; every included transaction that
was drawn from the mempool (the verified ones, all included transactions
except the appended coinbase) was present before the commit; and every
mempool transaction that failed verification, hence was not included,
remains present. The hypotheses state the mempool invariants of the Go
code: entries are keyed by their transaction id, keys are distinct, and
the freshly built coinbase id is not a mempool key. -/
theorem mineTxs_mempool_update (verify : Transaction → Bool) (addr : String)
    (pool : List (List Nat × Transaction)) (st : Store)
    (hwf : ∀ p ∈ pool, p.1 = p.2.id)
    (hnd : (pool.map Prod.fst).Nodup)
    (hcb : alookup pool (NewCoinbaseTX addr emptyData).id = none) :
    (∀ tx ∈ (mineTxs verify addr pool st).included,
       alookup (mineTxs verify addr pool st).memPool tx.id = none) ∧
    (∀ tx ∈ (mineTxs verify addr pool st).verified, alookup pool tx.id = some tx) ∧
    (∀ p ∈ pool, verify p.2 = false →
       alookup (mineTxs verify addr pool st).memPool p.1 = some p.2) := by
  refine ⟨?_, ?_, ?_⟩
  · intro tx htx
    show alookup
      (((((pool.map Prod.snd).filter verify) ++ [NewCoinbaseTX addr emptyData]).foldl
        (fun m tx => aerase m tx.id) pool)) tx.id = none
    rw [alookup_foldl_aerase]
    have hmem : tx.id ∈ (((pool.map Prod.snd).filter verify) ++ [NewCoinbaseTX addr emptyData]).map Transaction.id :=
      List.mem_map_of_mem Transaction.id htx
    rw [if_pos hmem]
  · intro tx htx
    have htx2 : tx ∈ pool.map Prod.snd := List.mem_of_mem_filter htx
    rcases List.mem_map.mp htx2 with ⟨p, hp, hptx⟩
    have hkey : p.1 = tx.id := by
      rw [hwf p hp, hptx]
    have := alookup_of_mem_nodup pool hnd p hp
    rw [hkey, hptx] at this
    exact this
  · intro p hp hv
    show alookup
      (((((pool.map Prod.snd).filter verify) ++ [NewCoinbaseTX addr emptyData]).foldl
        (fun m tx => aerase m tx.id) pool)) p.1 = some p.2
    rw [alookup_foldl_aerase]
    have hnotin : p.1 ∉ (((pool.map Prod.snd).filter verify) ++ [NewCoinbaseTX addr emptyData]).map Transaction.id := by
      intro hin
      rw [List.map_append] at hin
      rcases List.mem_append.mp hin with hin1 | hin2
      · rcases List.mem_map.mp hin1 with ⟨tx, htx, hid⟩
        have htxp : tx ∈ pool.map Prod.snd := List.mem_of_mem_filter htx
        have hver : verify tx = true := List.of_mem_filter htx
        rcases List.mem_map.mp htxp with ⟨q, hq, hqtx⟩
        have hqk : q.1 = p.1 := by
          rw [hwf q hq, hqtx, hid]
        have : q = p := mem_nodup_keys_inj pool hnd q p hq hp hqk
        rw [← this, hqtx] at hv
        rw [hver] at hv
        cases hv
      · have hpid : p.1 = (NewCoinbaseTX addr emptyData).id := by
          simpa using hin2
        have hs := alookup_isSome_of_mem pool p hp
        rw [hpid, hcb] at hs
        cases hs
    rw [if_neg hnotin]
    exact alookup_of_mem_nodup pool hnd p hp

/-- A second mempool transaction for the mineTxs scenario, rejected by its
verifier below. -/
def exPoolTx2 : Transaction :=
  { id := [12], vin := [⟨[9], 1, exAddrB⟩], vout := [⟨5, exAddrA⟩] }

/-- A two-entry mempool keyed by the transaction ids. -/
def exPool2 : List (List Nat × Transaction) := [([11], exPoolTx), ([12], exPoolTx2)]

/-- A verifier accepting only the first transaction. -/
def exVerify1 : Transaction → Bool := fun tx => tx.id == [11]

/-- Witness for the amended C6 statement: on the two-entry mempool the
verified transaction is deleted and was present before, and the rejected
one is still present after the commit. -/
theorem mineTxs_mempool_update_witness :
    alookup (mineTxs exVerify1 exAddrM exPool2 exMine.st).memPool [11] = none ∧
    alookup exPool2 [11] = some exPoolTx ∧
    alookup (mineTxs exVerify1 exAddrM exPool2 exMine.st).memPool [12] = some exPoolTx2 := by
  have h := mineTxs_mempool_update exVerify1 exAddrM exPool2 exMine.st
    (by decide) (by decide) (by decide)
  exact ⟨h.1 exPoolTx (by decide), h.2.1 exPoolTx (by decide),
    h.2.2 ([12], exPoolTx2) (by decide) (by decide)⟩

/-- The empty store, used by concrete witnesses. -/
def emptyStore : Store := []

/-- The selectable outputs of one transaction, restricted to an explicit
indexed output list: the unlockable outputs as triples of transaction id,
output index and value, in scan order. -/
def candsOfOuts (address : String) (tx : Transaction)
    (outs : List (Nat × TXOutput)) : List (List Nat × Nat × Int) :=
  (outs.filter (fun p => p.2.CanBeUnlockedWith address)).map
    (fun p => (tx.id, p.1, p.2.value))

/-- All selectable outputs of the unspent transaction list, in the scan
order of FindSpendableOutputs. -/
def spendableCands (address : String) (txs : List Transaction) :
    List (List Nat × Nat × Int) :=
  (txs.map (fun tx => candsOfOuts address tx tx.vout.enum)).flatten

/-- Greedy reference selection over the flat candidate list: starting from
the running total, select candidates while the total is below the amount,
stopping right after the total first reaches or exceeds it. -/
def takeUntil (amount : Int) : List (List Nat × Nat × Int) → Int →
    Int × List (List Nat × Nat × Int)
  | [], acc => (acc, [])
  | c :: rest, acc =>
    if acc < amount then
      if amount ≤ acc + c.2.2 then (acc + c.2.2, [c])
      else ((takeUntil amount rest (acc + c.2.2)).1,
            c :: (takeUntil amount rest (acc + c.2.2)).2)
    else takeUntil amount rest acc

/-- Grouping of selected candidates by transaction id, as the Go map of
index lists is built. -/
def groupFold (sel : List (List Nat × List Int))
    (S : List (List Nat × Nat × Int)) : List (List Nat × List Int) :=
  S.foldl (fun m c => smAdd m c.1 (Int.ofNat c.2.1)) sel

/-- Sum of the values of a candidate list. -/
def sumVals : List (List Nat × Nat × Int) → Int
  | [] => 0
  | c :: S => c.2.2 + sumVals S

/-- Grouping distributes over candidate list concatenation. -/
theorem groupFold_append (sel : List (List Nat × List Int))
    (a b : List (List Nat × Nat × Int)) :
    groupFold sel (a ++ b) = groupFold (groupFold sel a) b := by
  simp [groupFold, List.foldl_append]

/-- With the running total at or above the amount, nothing is selected. -/
theorem takeUntil_stop (amount : Int) (cs : List (List Nat × Nat × Int)) :
    ∀ acc : Int, ¬ acc < amount → takeUntil amount cs acc = (acc, []) := by
  induction cs with
  | nil => intro acc h; rfl
  | cons c rest ih =>
    intro acc h
    simp [takeUntil, h, ih acc h]

/-- The selection over a concatenation runs the first part, then continues
over the second from the reached total; when the first part stopped at the
amount the second part selects nothing, so the equation holds in every
case. -/
theorem takeUntil_append (amount : Int) (s : List (List Nat × Nat × Int)) :
    ∀ (r : List (List Nat × Nat × Int)) (acc : Int),
      takeUntil amount (s ++ r) acc
        = ((takeUntil amount r (takeUntil amount s acc).1).1,
           (takeUntil amount s acc).2 ++ (takeUntil amount r (takeUntil amount s acc).1).2) := by
  induction s with
  | nil => intro r acc; simp [takeUntil]
  | cons c s ih =>
    intro r acc
    by_cases h : acc < amount
    · by_cases h2 : amount ≤ acc + c.2.2
      · have hstop : ¬ acc + c.2.2 < amount := not_lt.mpr h2
        simp [takeUntil, h, h2, takeUntil_stop amount r _ hstop]
      · simp [takeUntil, h, h2, ih]
    · simp [takeUntil, h, ih, takeUntil_stop amount r acc h]

/-- The reached total is the starting total plus the selected values. -/
theorem takeUntil_sum (amount : Int) (cs : List (List Nat × Nat × Int)) :
    ∀ acc : Int,
      (takeUntil amount cs acc).1 = acc + sumVals (takeUntil amount cs acc).2 := by
  induction cs with
  | nil => intro acc; simp [takeUntil, sumVals]
  | cons c rest ih =>
    intro acc
    by_cases h : acc < amount
    · by_cases h2 : amount ≤ acc + c.2.2
      · simp [takeUntil, h, h2, sumVals]
      · simp only [takeUntil, if_pos h, if_neg h2]
        rw [ih (acc + c.2.2)]
        simp [sumVals]
        ring
    · simp [takeUntil, h, ih acc]

/-- Before each selected candidate the running total was still below the
amount: every strict front segment of the selection sums below it. -/
theorem takeUntil_below (amount : Int) (cs : List (List Nat × Nat × Int)) :
    ∀ (acc : Int) (i : Nat), i < (takeUntil amount cs acc).2.length →
      acc + sumVals ((takeUntil amount cs acc).2.take i) < amount := by
  induction cs with
  | nil => intro acc i hi; simp [takeUntil] at hi
  | cons c rest ih =>
    intro acc i hi
    by_cases h : acc < amount
    · by_cases h2 : amount ≤ acc + c.2.2
      · simp only [takeUntil, if_pos h, if_pos h2] at hi ⊢
        cases i with
        | zero => simpa [sumVals] using h
        | succ i => simp at hi
      · simp only [takeUntil, if_pos h, if_neg h2] at hi ⊢
        cases i with
        | zero => simpa [sumVals] using h
        | succ i =>
          simp only [List.length_cons, Nat.succ_lt_succ_iff] at hi
          have := ih (acc + c.2.2) i hi
          simp only [List.take_succ_cons, sumVals]
          omega
    · simp only [takeUntil_stop amount (c :: rest) acc h] at hi
      simp at hi

/-- When the reached total is still below the amount, every candidate was
selected: the outputs were exhausted. -/
theorem takeUntil_exhausts (amount : Int) (cs : List (List Nat × Nat × Int)) :
    ∀ acc : Int, (takeUntil amount cs acc).1 < amount →
      (takeUntil amount cs acc).2 = cs := by
  induction cs with
  | nil => intro acc h; rfl
  | cons c rest ih =>
    intro acc hlt
    by_cases h : acc < amount
    · by_cases h2 : amount ≤ acc + c.2.2
      · simp only [takeUntil, if_pos h, if_pos h2] at hlt
        omega
      · simp only [takeUntil, if_pos h, if_neg h2] at hlt ⊢
        rw [ih (acc + c.2.2) hlt]
    · rw [takeUntil_stop amount (c :: rest) acc h] at hlt
      exact absurd hlt h

/-- An unlockable output heads the candidate list of its suffix. -/
theorem candsOfOuts_cons_pos (address : String) (tx : Transaction)
    (outIdx : Nat) (out : TXOutput) (rest : List (Nat × TXOutput))
    (hu : out.CanBeUnlockedWith address = true) :
    candsOfOuts address tx ((outIdx, out) :: rest)
      = (tx.id, outIdx, out.value) :: candsOfOuts address tx rest := by
  simp [candsOfOuts, List.filter_cons, hu]

/-- A locked output contributes no candidate. -/
theorem candsOfOuts_cons_neg (address : String) (tx : Transaction)
    (outIdx : Nat) (out : TXOutput) (rest : List (Nat × TXOutput))
    (hu : ¬ out.CanBeUnlockedWith address = true) :
    candsOfOuts address tx ((outIdx, out) :: rest) = candsOfOuts address tx rest := by
  simp [candsOfOuts, List.filter_cons, hu]

/-- Inner loop step when the selection condition fails. -/
theorem findSpendableInner_cons_skip (address : String) (amount : Int)
    (tx : Transaction) (outIdx : Nat) (out : TXOutput)
    (rest : List (Nat × TXOutput)) (acc : Int) (sel : List (List Nat × List Int))
    (hc : (out.CanBeUnlockedWith address && decide (acc < amount)) = false) :
    findSpendableInner address amount tx ((outIdx, out) :: rest) acc sel
      = findSpendableInner address amount tx rest acc sel := by
  simp [findSpendableInner, hc]

/-- Inner loop step when a selection reaches the amount: the labelled
break fires. -/
theorem findSpendableInner_cons_break (address : String) (amount : Int)
    (tx : Transaction) (outIdx : Nat) (out : TXOutput)
    (rest : List (Nat × TXOutput)) (acc : Int) (sel : List (List Nat × List Int))
    (hc : (out.CanBeUnlockedWith address && decide (acc < amount)) = true)
    (h2 : amount ≤ acc + out.value) :
    findSpendableInner address amount tx ((outIdx, out) :: rest) acc sel
      = (acc + out.value, smAdd sel tx.id (Int.ofNat outIdx), true) := by
  simp [findSpendableInner, hc, h2]

/-- Inner loop step when a selection stays below the amount. -/
theorem findSpendableInner_cons_cont (address : String) (amount : Int)
    (tx : Transaction) (outIdx : Nat) (out : TXOutput)
    (rest : List (Nat × TXOutput)) (acc : Int) (sel : List (List Nat × List Int))
    (hc : (out.CanBeUnlockedWith address && decide (acc < amount)) = true)
    (h2 : ¬ amount ≤ acc + out.value) :
    findSpendableInner address amount tx ((outIdx, out) :: rest) acc sel
      = findSpendableInner address amount tx rest (acc + out.value)
          (smAdd sel tx.id (Int.ofNat outIdx)) := by
  simp [findSpendableInner, hc, h2]

/-- The inner loop equals the greedy reference selection over the
candidates of this transaction, with the grouped selection folded on; when
it reports the break, the reached total is at the amount. -/
theorem findSpendableInner_eq (address : String) (amount : Int) (tx : Transaction)
    (outs : List (Nat × TXOutput)) :
    ∀ (acc : Int) (sel : List (List Nat × List Int)),
      (findSpendableInner address amount tx outs acc sel).1
          = (takeUntil amount (candsOfOuts address tx outs) acc).1 ∧
      (findSpendableInner address amount tx outs acc sel).2.1
          = groupFold sel (takeUntil amount (candsOfOuts address tx outs) acc).2 ∧
      ((findSpendableInner address amount tx outs acc sel).2.2 = true →
          amount ≤ (takeUntil amount (candsOfOuts address tx outs) acc).1) := by
  induction outs with
  | nil =>
    intro acc sel
    simp [findSpendableInner, candsOfOuts, takeUntil, groupFold]
  | cons p rest ih =>
    intro acc sel
    rcases p with ⟨outIdx, out⟩
    by_cases hu : out.CanBeUnlockedWith address = true
    · rw [candsOfOuts_cons_pos address tx outIdx out rest hu]
      by_cases ha : acc < amount
      · have hc : (out.CanBeUnlockedWith address && decide (acc < amount)) = true := by
          simp [hu, ha]
        by_cases h2 : amount ≤ acc + out.value
        · rw [findSpendableInner_cons_break address amount tx outIdx out rest acc sel hc h2]
          have ht : takeUntil amount ((tx.id, outIdx, out.value) :: candsOfOuts address tx rest) acc
              = (acc + out.value, [(tx.id, outIdx, out.value)]) := by
            simp [takeUntil, ha, h2]
          rw [ht]
          exact ⟨rfl, rfl, fun _ => h2⟩
        · rw [findSpendableInner_cons_cont address amount tx outIdx out rest acc sel hc h2]
          have ht : takeUntil amount ((tx.id, outIdx, out.value) :: candsOfOuts address tx rest) acc
              = ((takeUntil amount (candsOfOuts address tx rest) (acc + out.value)).1,
                 (tx.id, outIdx, out.value)
                   :: (takeUntil amount (candsOfOuts address tx rest) (acc + out.value)).2) := by
            simp [takeUntil, ha, h2]
          rw [ht]
          exact ih (acc + out.value) (smAdd sel tx.id (Int.ofNat outIdx))
      · have hc : (out.CanBeUnlockedWith address && decide (acc < amount)) = false := by
          simp [ha]
        rw [findSpendableInner_cons_skip address amount tx outIdx out rest acc sel hc]
        have ht : takeUntil amount ((tx.id, outIdx, out.value) :: candsOfOuts address tx rest) acc
            = takeUntil amount (candsOfOuts address tx rest) acc := by
          simp [takeUntil, ha]
        rw [ht]
        exact ih acc sel
    · have hc : (out.CanBeUnlockedWith address && decide (acc < amount)) = false := by
        simp [hu]
      rw [candsOfOuts_cons_neg address tx outIdx out rest hu,
        findSpendableInner_cons_skip address amount tx outIdx out rest acc sel hc]
      exact ih acc sel

/-- The outer loop equals the greedy reference selection over the full
candidate list of the scanned transactions. -/
theorem findSpendableLoop_eq (address : String) (amount : Int)
    (l : List Transaction) :
    ∀ (acc : Int) (sel : List (List Nat × List Int)),
      findSpendableLoop address amount l acc sel
        = ((takeUntil amount (spendableCands address l) acc).1,
           groupFold sel (takeUntil amount (spendableCands address l) acc).2) := by
  induction l with
  | nil =>
    intro acc sel
    simp [findSpendableLoop, spendableCands, takeUntil, groupFold]
  | cons tx rest ih =>
    intro acc sel
    have hsplit : spendableCands address (tx :: rest)
        = candsOfOuts address tx tx.vout.enum ++ spendableCands address rest := by
      simp [spendableCands]
    rw [hsplit, takeUntil_append]
    have hinner := findSpendableInner_eq address amount tx tx.vout.enum acc sel
    rcases hres : findSpendableInner address amount tx tx.vout.enum acc sel with ⟨acc2, sel2, flag⟩
    rw [hres] at hinner
    simp only at hinner
    rcases hinner with ⟨hacc2, hsel2, hflag⟩
    cases flag with
    | true =>
      have hge : amount ≤ (takeUntil amount (candsOfOuts address tx tx.vout.enum) acc).1 :=
        hflag rfl
      have hstop := takeUntil_stop amount (spendableCands address rest)
        (takeUntil amount (candsOfOuts address tx tx.vout.enum) acc).1 (not_lt.mpr hge)
      rw [hstop]
      simp only [findSpendableLoop, hres]
      rw [hacc2, hsel2]
      simp
    | false =>
      simp only [findSpendableLoop, hres]
      rw [ih acc2 sel2, hacc2, hsel2, groupFold_append]

/-- C9: FindSpendableOutputs maps the greedy scan over the unspent set,
and the scan is the greedy reference selection: it walks the unlockable
outputs of the unspent transaction list in their deterministic scan order,
accumulates values only while the running total is below the requested
amount and stops right after first reaching it (every strict front segment
of the selection sums below the amount), returns the selected indices
grouped by transaction id, and when the total stays below the amount the
candidates were exhausted, so a short total is returned rather than an
error. -/
theorem findSpendableOutputs_greedy_spec (bc : Blockchain) (st : Store)
    (address : String) (amount : Int) :
    FindSpendableOutputs bc st address amount
      = (FindUnspentTransactions bc st address).map (findSpendableFromList address amount) ∧
    (∀ l : List Transaction,
      findSpendableFromList address amount l
        = ((takeUntil amount (spendableCands address l) 0).1,
           groupFold [] (takeUntil amount (spendableCands address l) 0).2) ∧
      (takeUntil amount (spendableCands address l) 0).1
        = sumVals (takeUntil amount (spendableCands address l) 0).2 ∧
      (∀ i : Nat, i < (takeUntil amount (spendableCands address l) 0).2.length →
        sumVals ((takeUntil amount (spendableCands address l) 0).2.take i) < amount) ∧
      ((takeUntil amount (spendableCands address l) 0).1 < amount →
        (takeUntil amount (spendableCands address l) 0).2 = spendableCands address l)) := by
  constructor
  · rfl
  · intro l
    refine ⟨?_, ?_, ?_, ?_⟩
    · exact findSpendableLoop_eq address amount l 0 []
    · have h := takeUntil_sum amount (spendableCands address l) 0
      simpa using h
    · intro i hi
      have h := takeUntil_below amount (spendableCands address l) 0 i hi
      simpa using h
    · exact takeUntil_exhausts amount (spendableCands address l) 0

/-- Witness for C9 at a concrete input: with one transaction holding
unlockable values four and six and a requested amount of one hundred, the
front segment before the second selection sums below the amount, and since
the reached total ten is below the amount the selection exhausted all
candidates. -/
theorem findSpendableOutputs_greedy_spec_witness :
    sumVals ((takeUntil 100 (spendableCands exAddrA [exTx1]) 0).2.take 1) < 100 ∧
    (takeUntil 100 (spendableCands exAddrA [exTx1]) 0).2 = spendableCands exAddrA [exTx1] := by
  have h := (findSpendableOutputs_greedy_spec ⟨[]⟩ emptyStore exAddrA 100).2 [exTx1]
  exact ⟨h.2.2.1 1 (by decide), h.2.2.2 (by decide)⟩

/-- Occurrence count of an element in a list. -/
def countOcc {α : Type} [DecidableEq α] (x : α) : List α → Nat
  | [] => 0
  | y :: l => (if y = x then 1 else 0) + countOcc x l

/-- Counting distributes over concatenation. -/
theorem countOcc_append {α : Type} [DecidableEq α] (x : α) (a b : List α) :
    countOcc x (a ++ b) = countOcc x a + countOcc x b := by
  induction a with
  | nil => simp [countOcc]
  | cons y a ih => simp [countOcc, ih]; omega

/-- Bool disequality helper for if reductions. -/
theorem bool_false_ne_true : ¬ (false = true) := fun h => Bool.noConfusion h

/-- A member occurs at least once. -/
theorem countOcc_pos_of_mem {α : Type} [DecidableEq α] {x : α} {l : List α}
    (h : x ∈ l) : 1 ≤ countOcc x l := by
  induction l with
  | nil => cases h
  | cons y l ih =>
    simp only [countOcc]
    by_cases hyx : y = x
    · rw [if_pos hyx]
      omega
    · rw [if_neg hyx]
      have hxl : x ∈ l := by
        rcases List.mem_cons.mp h with hxy | hxl
        · exact absurd hxy.symm hyx
        · exact hxl
      have h1 := ih hxl
      omega

/-- A list holding two distinct members has length at least two. -/
theorem two_le_length_of_two_mem {α : Type} {l : List α} {a b : α}
    (ha : a ∈ l) (hb : b ∈ l) (hne : a ≠ b) : 2 ≤ l.length := by
  cases l with
  | nil => cases ha
  | cons x xs =>
    cases xs with
    | nil =>
      simp at ha hb
      exact absurd (ha.trans hb.symm) hne
    | cons y ys => simp

/-- Counting the constant of a constant map gives the source length. -/
theorem countOcc_map_const {α β : Type} [DecidableEq β] (l : List α) (y : β) :
    countOcc y (l.map (fun _ => y)) = l.length := by
  induction l with
  | nil => rfl
  | cons x l ih =>
    simp only [List.map_cons, countOcc, List.length_cons]
    rw [if_pos trivial, ih]
    omega

/-- Flattening a map yields at least the block of every occurrence: the
count of an element in the flattened lists is at least the count of a
source element times the count inside its image. -/
theorem countOcc_flatten_ge {α β : Type} [DecidableEq α] [DecidableEq β]
    (f : α → List β) (tx : α) (y : β) :
    ∀ l : List α, countOcc tx l * countOcc y (f tx) ≤ countOcc y ((l.map f).flatten) := by
  intro l
  induction l with
  | nil => simp [countOcc]
  | cons t r ih =>
    have hsplit : ((t :: r).map f).flatten = f t ++ ((r.map f).flatten) := by simp
    rw [hsplit, countOcc_append]
    by_cases ht : t = tx
    · subst ht
      have hcnt : countOcc t (t :: r) = 1 + countOcc t r := by simp [countOcc]
      rw [hcnt, Nat.add_mul, one_mul]
      exact Nat.add_le_add_left ih _
    · have hcnt : countOcc tx (t :: r) = countOcc tx r := by simp [countOcc, ht]
      rw [hcnt]
      exact le_trans ih (Nat.le_add_left _ _)

/-- The output-scan condition of FindUnspentTransactions for one indexed
output: not recorded spent, and unlockable by the address. -/
def qualOut (address : String) (s : SpentMap) (tx : Transaction)
    (p : Nat × TXOutput) : Bool :=
  !((smGet s tx.id).contains (Int.ofNat p.1)) && p.2.CanBeUnlockedWith address

/-- The outputs loop of processTx appends the transaction once per
qualifying output. -/
theorem processTx_outputs_fold (address : String) (tx : Transaction) (s : SpentMap) :
    ∀ (l : List (Nat × TXOutput)) (u : List Transaction),
      l.foldl (fun u p =>
        if (smGet s tx.id).contains (Int.ofNat p.1) then u
        else if p.2.CanBeUnlockedWith address then u ++ [tx] else u) u
      = u ++ (l.filter (qualOut address s tx)).map (fun _ => tx) := by
  intro l
  induction l with
  | nil => intro u; simp
  | cons p r ih =>
    intro u
    simp only [List.foldl_cons, List.filter_cons]
    cases h1 : (smGet s tx.id).contains (Int.ofNat p.1) with
    | true =>
      have hvq : qualOut address s tx p = false := by
        show (!((smGet s tx.id).contains (Int.ofNat p.1)) && p.2.CanBeUnlockedWith address)
          = false
        rw [h1]
        rfl
      rw [if_pos rfl, hvq, if_neg bool_false_ne_true]
      exact ih u
    | false =>
      cases h2 : p.2.CanBeUnlockedWith address with
      | true =>
        have hvq : qualOut address s tx p = true := by
          show (!((smGet s tx.id).contains (Int.ofNat p.1)) && p.2.CanBeUnlockedWith address)
            = true
          rw [h1, h2]
          rfl
        rw [if_neg bool_false_ne_true, if_pos rfl, hvq, if_pos rfl,
          ih (u ++ [tx]), List.map_cons]
        simp
      | false =>
        have hvq : qualOut address s tx p = false := by
          show (!((smGet s tx.id).contains (Int.ofNat p.1)) && p.2.CanBeUnlockedWith address)
            = false
          rw [h1, h2]
          rfl
        rw [if_neg bool_false_ne_true, if_neg bool_false_ne_true, hvq,
          if_neg bool_false_ne_true]
        exact ih u

/-- Splitting the accumulator out of one processTx step. -/
theorem processTx_split (address : String) (u : List Transaction) (s : SpentMap)
    (tx : Transaction) :
    processTx address (u, s) tx
      = (u ++ (processTx address ([], s) tx).1, (processTx address ([], s) tx).2) := by
  unfold processTx
  dsimp only
  rw [processTx_outputs_fold address tx s, processTx_outputs_fold address tx s]
  simp

/-- The unspent component of one processTx step from an empty accumulator:
the transaction repeated once per qualifying output. -/
theorem processTx_fst_nil (address : String) (s : SpentMap) (tx : Transaction) :
    (processTx address ([], s) tx).1
      = (tx.vout.enum.filter (qualOut address s tx)).map (fun _ => tx) := by
  unfold processTx
  dsimp only
  rw [processTx_outputs_fold address tx s]
  simp

/-- The walk fold accumulates its unspent list on the left, and the spent
map is independent of the accumulated unspent list. -/
theorem foldl_processTx_acc (address : String) (l : List Transaction) :
    ∀ (u : List Transaction) (s : SpentMap),
      (l.foldl (processTx address) (u, s)).1 = u ++ (l.foldl (processTx address) ([], s)).1 ∧
      (l.foldl (processTx address) (u, s)).2 = (l.foldl (processTx address) ([], s)).2 := by
  induction l with
  | nil => intro u s; simp
  | cons tx r ih =>
    intro u s
    simp only [List.foldl_cons]
    rw [processTx_split address u s tx]
    rcases hA : processTx address ([], s) tx with ⟨A, s2⟩
    have h1 := ih (u ++ A) s2
    have h2 := ih A s2
    constructor
    · rw [h1.1, h2.1, List.append_assoc]
    · rw [h1.2, h2.2]

/-- The output loop of FindUTXO appends exactly the unlockable outputs. -/
theorem outputs_filter_fold (address : String) :
    ∀ (vout : List TXOutput) (acc : List TXOutput),
      vout.foldl (fun acc2 out =>
          if out.CanBeUnlockedWith address then acc2 ++ [out] else acc2) acc
        = acc ++ vout.filter (fun o => o.CanBeUnlockedWith address) := by
  intro vout
  induction vout with
  | nil => intro acc; simp
  | cons o r ih =>
    intro acc
    simp only [List.foldl_cons, List.filter_cons]
    cases h : o.CanBeUnlockedWith address with
    | true =>
      rw [if_pos rfl, if_pos rfl, ih (acc ++ [o])]
      simp
    | false =>
      rw [if_neg bool_false_ne_true, if_neg bool_false_ne_true, ih acc]

/-- The double loop of FindUTXO flattens the per-transaction unlockable
output lists. -/
theorem findUTXOFromList_fold (address : String) :
    ∀ (txs : List Transaction) (acc : List TXOutput),
      txs.foldl (fun acc tx => tx.vout.foldl
          (fun acc2 out => if out.CanBeUnlockedWith address then acc2 ++ [out] else acc2) acc) acc
        = acc ++ ((txs.map (fun t => t.vout.filter (fun o => o.CanBeUnlockedWith address))).flatten) := by
  intro txs
  induction txs with
  | nil => intro acc; simp
  | cons t r ih =>
    intro acc
    simp only [List.foldl_cons, List.map_cons]
    rw [outputs_filter_fold address t.vout acc, ih]
    simp

/-- FindUTXO over an unspent list is the flattened unlockable outputs, one
batch per occurrence of each transaction in the unspent list. -/
theorem findUTXOFromList_flatten (txs : List Transaction) (address : String) :
    findUTXOFromList txs address
      = ((txs.map (fun t => t.vout.filter (fun o => o.CanBeUnlockedWith address))).flatten) := by
  unfold findUTXOFromList
  rw [findUTXOFromList_fold address txs []]
  simp

/-- FindUnspentTransactions is the walk of the chain followed by the pure
scan of the walked transactions. -/
theorem findUnspent_eq_walkTxs (bc : Blockchain) (st : Store) (address : String) :
    FindUnspentTransactions bc st address
      = (walkTxs st bc.tip).map (fun l => findUnspentFromList l address) := by
  rcases h : (walkBlocksS (storeSize st + 1) st bc.tip).1 with _ | bs
  · unfold FindUnspentTransactions FindUnspentTransactionsS walkTxs walkBlocks
    dsimp only
    rw [h]
    rfl
  · unfold FindUnspentTransactions FindUnspentTransactionsS walkTxs walkBlocks
    dsimp only
    rw [h]
    rfl

/-- FindUTXO maps the output collection over the unspent derivation. -/
theorem findUTXO_eq_map (bc : Blockchain) (st : Store) (address : String) :
    FindUTXO bc st address
      = (FindUnspentTransactions bc st address).map (fun l => findUTXOFromList l address) :=
  rfl

/-- Splitting the accumulator out of one processTx step, pair form. -/
theorem processTx_split2 (address : String) (acc : List Transaction × SpentMap)
    (tx : Transaction) :
    processTx address acc tx
      = (acc.1 ++ (processTx address ([], acc.2) tx).1, (processTx address ([], acc.2) tx).2) := by
  rcases acc with ⟨u, s⟩
  exact processTx_split address u s tx

/-- C10: when the walk reaches a transaction holding two distinct output
indices that are unlockable by the address and not recorded spent at that
point of the scan, FindUnspentTransactions lists that transaction at least
twice, and FindUTXO consequently lists each of its unlockable outputs at
least twice, rather than each unspent output exactly once. -/
theorem findUnspentTransactions_duplicates
    (bc : Blockchain) (st : Store) (address : String)
    (pre post : List Transaction) (tx : Transaction)
    (i j : Nat) (oi oj : TXOutput)
    (hwalk : walkTxs st bc.tip = some (pre ++ tx :: post))
    (hi : (i, oi) ∈ tx.vout.enum) (hj : (j, oj) ∈ tx.vout.enum)
    (hne : i ≠ j)
    (hqi : qualOut address (spentAfter address pre) tx (i, oi) = true)
    (hqj : qualOut address (spentAfter address pre) tx (j, oj) = true) :
    FindUnspentTransactions bc st address
      = some (findUnspentFromList (pre ++ tx :: post) address) ∧
    2 ≤ countOcc tx (findUnspentFromList (pre ++ tx :: post) address) ∧
    FindUTXO bc st address
      = some (findUTXOFromList (findUnspentFromList (pre ++ tx :: post) address) address) ∧
    (∀ o ∈ tx.vout.filter (fun o => o.CanBeUnlockedWith address),
      2 ≤ countOcc o (findUTXOFromList (findUnspentFromList (pre ++ tx :: post) address) address)) := by
  have hmain : FindUnspentTransactions bc st address
      = some (findUnspentFromList (pre ++ tx :: post) address) := by
    rw [findUnspent_eq_walkTxs, hwalk]
    rfl
  have hcount : 2 ≤ countOcc tx (findUnspentFromList (pre ++ tx :: post) address) := by
    unfold findUnspentFromList
    rw [List.foldl_append, List.foldl_cons,
      processTx_split2 address (List.foldl (processTx address) ([], []) pre) tx,
      (foldl_processTx_acc address post
        ((List.foldl (processTx address) ([], []) pre).1
          ++ (processTx address ([], (List.foldl (processTx address) ([], []) pre).2) tx).1)
        ((processTx address ([], (List.foldl (processTx address) ([], []) pre).2) tx).2)).1,
      countOcc_append, countOcc_append]
    have hcA : 2 ≤ countOcc tx
        (processTx address ([], (List.foldl (processTx address) ([], []) pre).2) tx).1 := by
      have hsp : (List.foldl (processTx address) ([], []) pre).2 = spentAfter address pre := rfl
      rw [hsp, processTx_fst_nil address (spentAfter address pre) tx, countOcc_map_const]
      exact two_le_length_of_two_mem (List.mem_filter.mpr ⟨hi, hqi⟩)
        (List.mem_filter.mpr ⟨hj, hqj⟩)
        (fun hcontra => hne (congrArg Prod.fst hcontra))
    omega
  refine ⟨hmain, hcount, ?_, ?_⟩
  · rw [findUTXO_eq_map, hmain]
    rfl
  · intro o ho
    rw [findUTXOFromList_flatten]
    have hflat := countOcc_flatten_ge
      (fun t => t.vout.filter (fun o2 => o2.CanBeUnlockedWith address)) tx o
      (findUnspentFromList (pre ++ tx :: post) address)
    have h1 : 1 ≤ countOcc o (tx.vout.filter (fun o2 => o2.CanBeUnlockedWith address)) :=
      countOcc_pos_of_mem ho
    calc 2 = 2 * 1 := rfl
    _ ≤ countOcc tx (findUnspentFromList (pre ++ tx :: post) address)
          * countOcc o (tx.vout.filter (fun o2 => o2.CanBeUnlockedWith address)) :=
        Nat.mul_le_mul hcount h1
    _ ≤ countOcc o (((findUnspentFromList (pre ++ tx :: post) address).map
          (fun t => t.vout.filter (fun o2 => o2.CanBeUnlockedWith address))).flatten) := hflat

/-- Witness for C10 at the worked chain: the mined block holds one
transaction with two unlockable unspent outputs, the unspent list holds it
twice, and each of its outputs shows up at least twice in FindUTXO. -/
theorem findUnspentTransactions_duplicates_witness :
    2 ≤ countOcc exTx1 (findUnspentFromList ([] ++ exTx1 :: []) exAddrA) ∧
    2 ≤ countOcc (⟨4, exAddrA⟩ : TXOutput)
        (findUTXOFromList (findUnspentFromList ([] ++ exTx1 :: []) exAddrA) exAddrA) := by
  have h := findUnspentTransactions_duplicates exMine.bc exMine.st exAddrA
    [] [] exTx1 0 1 ⟨4, exAddrA⟩ ⟨6, exAddrA⟩
    (by decide) (by decide) (by decide) (by decide) (by decide) (by decide)
  exact ⟨h.2.1, h.2.2.2 ⟨4, exAddrA⟩ (by decide)⟩
